import Mathlib

/-!
# Verification of the `sem` simulation execution manager

Shallow embedding of `sem/runner.py` (the `SimulationRunner` class), together
with models of the result-store operations whose implementation lives outside
the repository snapshot (only their tests are present); those models are
marked `Modelled from the spec:` in their doc comments.

Conventions:
* Python strings are Lean `String`s; `os.path.join a b` (with `b` relative and
  `a` without trailing slash) is `a ++ "/" ++ b`.
* Python dictionaries iterated with `.items()` are association lists
  `List (String × String)` in iteration order.
* Nondeterministic external effects (uuid generation, process return codes,
  process output, wall-clock readings) are supplied by an oracle `ExecEnv`
  indexed by the position of the combination in the submitted list.
* Python `subprocess` return codes are `Int` (negative values encode
  signal-terminated processes, which did not exit with an exit code).
-/

namespace Sem

/-- A parameter combination: mapping from parameter name to (stringified)
value, in the iteration order of `parameter.items()`. -/
abbrev Combination := List (String × String)

/-- Model of `os.path.join a b` for a relative second component. -/
def pathJoin (a b : String) : String := a ++ "/" ++ b

/-- The environment dictionary built in `SimulationRunner.__init__`
(runner.py lines 36-53).  In the non-optimized branch the source computes
`library_path = build:build/lib` but then stores only `os.path.join(path,
'build')` in both variables. -/
def makeEnvironment (path : String) (optimized : Bool) : List (String × String) :=
  if optimized then
    let library_path := pathJoin path "build/optimized" ++ ":" ++
      pathJoin path "build/optimized/lib"
    [("LD_LIBRARY_PATH", library_path), ("DYLD_LIBRARY_PATH", library_path)]
  else
    [("LD_LIBRARY_PATH", pathJoin path "build"), ("DYLD_LIBRARY_PATH", pathJoin path "build")]

/-- The runner's state after `__init__`: saved path and script, the
environment dictionary, and the resolved script executable path. -/
structure SimulationRunner where
  path : String
  script : String
  environment : List (String × String)
  script_executable : String

/-! ## Script-executable resolution (runner.py lines 77-98) -/

/-- Python's `needle in haystack` substring test on strings. -/
def strContains (haystack needle : String) : Bool :=
  haystack.data.tails.any (fun t => needle.data.isPrefixOf t)

/-- One entry of `matches` (runner.py line 81): a runnable program whose name
contains the script name, with its name and absolute path. -/
structure ScriptMatch where
  name : String
  path : String
deriving DecidableEq, Repr

/-- The `matches` list (runner.py lines 81-84): the runnable programs whose name
contains `script` as a substring, with `os.path.abspath(os.path.join(path,
program))` as the path (`abspath` is the identity here since `path` is
documented to be absolute). -/
def findMatches (path script : String) (runnable_programs : List String) : List ScriptMatch :=
  (runnable_programs.filter (fun program => strContains program script)).map
    (fun program => ⟨program, pathJoin path program⟩)

/-- The `percentage` key (runner.py lines 91-94): `len(script)/len(name)`. -/
def matchPercentage (script : String) (name : String) : ℚ :=
  (script.length : ℚ) / (name.length : ℚ)

/-- Python's `max(key=...)` over a non-empty sequence: keeps the first
element attaining the maximal key (a later element replaces the current best
only on a strictly greater key). -/
def pythonMax {α : Type} (key : α → ℚ) (x : α) (xs : List α) : α :=
  xs.foldl (fun best y => if key best < key y then y else best) x

/-- Script-executable resolution (runner.py lines 77-98): `none` models the
`ValueError("Cannot find ... script")` (spec name: ScriptNotFound); otherwise
the match maximizing `len(script)/len(name)` is selected. -/
def selectScriptExecutable (path script : String) (runnable_programs : List String) :
    Option ScriptMatch :=
  match findMatches path script runnable_programs with
  | [] => none
  | m :: ms => some (pythonMax (fun x => matchPercentage script x.name) m ms)

/-! ## Simulation running (runner.py lines 214-274) -/

/-- Oracle for the external effects of `run_simulations`, indexed by the
position `idx` of the combination in `parameter_list`:
`uuid.uuid4()` results, process return codes, what the spawned process wrote
on stdout/stderr, and the two `time.time()` readings.  `osEnviron` is the
parent process environment (`os.environ`), which `subprocess.call(...,
env=self.environment)` replaces wholesale. -/
structure ExecEnv where
  ids : Nat → String
  returncode : Nat → Int
  simStdout : Nat → String
  simStderr : Nat → String
  tStart : Nat → ℚ
  tEnd : Nat → ℚ
  osEnviron : List (String × String)

/-- The `meta` dictionary of a result (runner.py lines 239, 272). -/
structure ResultMeta where
  id : String
  elapsed_time : ℚ
deriving DecidableEq, Repr

/-- A yielded result (runner.py lines 228-232, 274). -/
structure SimResult where
  params : Combination
  meta : ResultMeta
deriving DecidableEq, Repr

/-- The data carried by the exception raised on a failed simulation
(runner.py lines 255-270): the parameters, the captured stderr and stdout
read back from the files, and the ready-to-paste reproduction command. -/
structure SimulationFailure where
  params : Combination
  stderr : String
  stdout : String
  reproCommand : String
deriving DecidableEq, Repr

/-- Observable footprint of one loop iteration: the argv built for
`subprocess.call`, the environment passed to it, its working directory
(`cwd=temp_dir`), and the paths and contents of the redirected stdout/stderr
files. -/
structure RunTrace where
  command : List String
  env : List (String × String)
  cwd : String
  stdoutPath : String
  stderrPath : String
  stdoutContent : String
  stderrContent : String
deriving DecidableEq, Repr

/-- One command-line token `'--%s=%s' % (param, value)` (runner.py line 234). -/
def paramToken (pv : String × String) : String := "--" ++ pv.1 ++ "=" ++ pv.2

/-- The reproduction command built on failure (runner.py lines 256-259). -/
def reproductionCommand (script : String) (parameter : Combination) : String :=
  "./waf --run \"" ++ String.intercalate " " (script :: parameter.map paramToken) ++ "\""

/-- One iteration of the `run_simulations` loop (runner.py lines 226-274) on
the combination at position `idx`.  The working directory
`data_folder/<uuid>` and the `stdout`/`stderr` files inside it are created
and written unconditionally; the exception is raised iff the return code is
strictly positive (a negative code, i.e. a signal-terminated process, falls
through to the yield). -/
def runOne (runner : SimulationRunner) (env : ExecEnv) (data_folder : String)
    (idx : Nat) (parameter : Combination) : RunTrace × Except SimulationFailure SimResult :=
  let id := env.ids idx
  let command := runner.script_executable :: parameter.map paramToken
  let temp_dir := pathJoin data_folder id
  let trace : RunTrace :=
    { command := command
      env := runner.environment
      cwd := temp_dir
      stdoutPath := pathJoin temp_dir "stdout"
      stderrPath := pathJoin temp_dir "stderr"
      stdoutContent := env.simStdout idx
      stderrContent := env.simStderr idx }
  if 0 < env.returncode idx then
    (trace, .error
      { params := parameter
        stderr := env.simStderr idx
        stdout := env.simStdout idx
        reproCommand := reproductionCommand runner.script parameter })
  else
    (trace, .ok { params := parameter, meta := { id := id, elapsed_time := env.tEnd idx - env.tStart idx } })

/-- The generator `run_simulations`, starting from loop index `idx`: the list
of iteration traces, the list of yielded results, and the exception that
aborted the loop, if any.  An exception stops the loop: no later combination
is executed. -/
def runSimulationsFrom (runner : SimulationRunner) (env : ExecEnv) (data_folder : String) :
    Nat → List Combination → List RunTrace × List SimResult × Option SimulationFailure
  | _, [] => ([], [], none)
  | idx, p :: ps =>
    match runOne runner env data_folder idx p with
    | (tr, .error f) => ([tr], [], some f)
    | (tr, .ok r) =>
      let rest := runSimulationsFrom runner env data_folder (idx + 1) ps
      (tr :: rest.1, r :: rest.2.1, rest.2.2)

/-- The generator `run_simulations(parameter_list, data_folder)` (runner.py lines 214-274),
run to exhaustion (or to its first exception). -/
def run_simulations (runner : SimulationRunner) (env : ExecEnv)
    (parameter_list : List Combination) (data_folder : String) :
    List RunTrace × List SimResult × Option SimulationFailure :=
  runSimulationsFrom runner env data_folder 0 parameter_list

/-- The result yielded for a successful combination at position `idx`. -/
def mkSuccess (env : ExecEnv) (idx : Nat) (parameter : Combination) : SimResult :=
  { params := parameter
    meta := { id := env.ids idx, elapsed_time := env.tEnd idx - env.tStart idx } }

/-- Number of leading combinations (starting at loop index `idx`, among `n`
submitted) whose process exits with return code `≤ 0`, i.e. the position of
the first failing combination (or `n` if none fails). -/
def firstFailFrom (env : ExecEnv) : Nat → Nat → Nat
  | _, 0 => 0
  | idx, n + 1 => if 0 < env.returncode idx then 0 else firstFailFrom env (idx + 1) n + 1

/-! ## Build-progress parsing (runner.py lines 158-183) -/

/-- Python's `\s` character class. -/
def pyIsSpace (c : Char) : Bool :=
  c = ' ' || c = '\t' || c = '\n' || c = '\x0d' || c = '\x0b' || c = '\x0c'

/-- Numeric value of a digit group, as computed by Python's `int`. -/
def digitsToNat (ds : List Char) : Nat :=
  ds.foldl (fun n c => 10 * n + (c.toNat - '0'.toNat)) 0

/-- Match the pattern `\[\s*(\d+?)/(\d+)\]` anchored at the head of `cs`:
a literal `[`, optional whitespace, a digit group, `/`, a digit group, `]`.
(The lazy `\d+?` group, being followed by the literal `/`, matches exactly
the maximal digit run, like the greedy one.) -/
def progressAt (cs : List Char) : Option (Nat × Nat) :=
  match cs with
  | '[' :: rest =>
    let afterSpaces := rest.dropWhile pyIsSpace
    match afterSpaces.span Char.isDigit with
    | ([], _) => none
    | (d1, rest2) =>
      match rest2 with
      | '/' :: rest3 =>
        match rest3.span Char.isDigit with
        | ([], _) => none
        | (d2, rest4) =>
          match rest4 with
          | ']' :: _ => some (digitsToNat d1, digitsToNat d2)
          | _ => none
      | _ => none
  | _ => none

/-- Model of `re.search`: try the pattern at each position, leftmost match first. -/
def searchProgress : List Char → Option (Nat × Nat)
  | [] => none
  | c :: cs =>
    match progressAt (c :: cs) with
    | some p => some p
    | none => searchProgress cs

/-- Python's `str.strip()`: remove leading and trailing whitespace. -/
def pyStrip (cs : List Char) : List Char :=
  ((cs.dropWhile pyIsSpace).reverse.dropWhile pyIsSpace).reverse

/-- Parsing of one build-output line (runner.py lines 180-183):
`re.search('\[\s*(\d+?)/(\d+)\].*', output.strip())`, yielding the two
captured numbers when the pattern occurs. -/
def parseProgressLine (line : String) : Option (Nat × Nat) :=
  searchProgress (pyStrip line.data)

/-- The data carried by the exception raised on a failed build (runner.py
lines 170-174): the remaining contents of the process's stderr and stdout
streams. -/
structure BuildFailure where
  stderr : String
  stdout : String
deriving DecidableEq, Repr

/-- The `get_build_output` generator (runner.py lines 158-183), run to
exhaustion: `lines` are the lines read from the build process's stdout until
EOF, `returncode` the process's exit status observed at EOF, and
`remStderr`/`remStdout` what remains on the two streams.  Returns the yielded
`(done, total)` pairs and, if the return code is strictly positive, the
compilation-error exception (`raise StopIteration`, the normal end of the
generator, otherwise). -/
def get_build_output (lines : List String) (returncode : Int)
    (remStderr remStdout : String) : List (Nat × Nat) × Option BuildFailure :=
  match lines with
  | [] => ([], if 0 < returncode then some ⟨remStderr, remStdout⟩ else none)
  | line :: rest =>
    let tail := get_build_output rest returncode remStderr remStdout
    match parseProgressLine line with
    | some p => (p :: tail.1, tail.2)
    | none => tail

/-! ## Parameter discovery (runner.py lines 185-208) -/

/-- The `subprocess.check_output` invocation of `get_available_parameters`
(runner.py lines 194-196): argv, environment and working directory. -/
def availableParametersCall (runner : SimulationRunner) :
    List String × List (String × String) × String :=
  ([runner.script_executable, "--PrintHelp"], runner.environment, runner.path)

/-- If the pattern `Program\s(?:Options|Arguments):` matches at the head of
`cs`, the length of the match. -/
def progHeaderLen (cs : List Char) : Option Nat :=
  if "Program".data.isPrefixOf cs then
    match cs.drop 7 with
    | c :: rest =>
      if pyIsSpace c then
        if "Options:".data.isPrefixOf rest then some 16
        else if "Arguments:".data.isPrefixOf rest then some 18
        else none
      else none
    | [] => none
  else none

/-- Whether the pattern `General\sArguments` matches at the head of `cs`. -/
def generalHeaderAt (cs : List Char) : Bool :=
  "General".data.isPrefixOf cs &&
    (match cs.drop 7 with
     | c :: rest => pyIsSpace c && "Arguments".data.isPrefixOf rest
     | [] => false)

/-- The single match of `re.findall('.*Program\s(?:Options|Arguments):'
'(.*)General\sArguments.*', result, re.DOTALL)` (runner.py lines 199-201):
with `re.DOTALL` and the two greedy `.*`, group 1 spans from the end of the
LAST `Program Options/Arguments:` header that is followed by a
`General Arguments` marker, to the start of the LAST such marker after it;
`none` when the pattern does not match (markers absent or out of order). -/
def optionsBlock (cs : List Char) : Option (List Char) :=
  let gPositions := (List.range (cs.length + 1)).filter (fun g => generalHeaderAt (cs.drop g))
  let pEnds := (List.range (cs.length + 1)).filterMap (fun i =>
    match progHeaderLen (cs.drop i) with
    | some len => if gPositions.any (fun g => i + len ≤ g) then some (i + len) else none
    | none => none)
  match pEnds.getLast? with
  | none => none
  | some e =>
    match (gPositions.filter (fun g => e ≤ g)).getLast? with
    | none => none
    | some g => some ((cs.drop e).take (g - e))

/-- One match of `re.findall('.*--(.*?):.*', options, re.MULTILINE)` within a
single (newline-free) line: the greedy leading `.*` selects the LAST `--`
that is still followed by a `:`; the lazy group captures up to the first `:`
after it.  With `.` not matching newlines, the pattern matches at most once
per line, so `findall` returns one capture per matching line. -/
def lineArg (line : List Char) : Option (List Char) :=
  let starts := (List.range (line.length + 1)).filter (fun i =>
    "--".data.isPrefixOf (line.drop i) && (line.drop (i + 2)).contains ':')
  match starts.getLast? with
  | none => none
  | some i => some ((line.drop (i + 2)).takeWhile (fun c => c ≠ ':'))

/-- The function `get_available_parameters` (runner.py lines 185-208) as a function of the
help output text: the option names extracted from the block between the
`Program Options/Arguments:` and `General Arguments` markers, or `[]` when
the outer pattern finds no match. -/
def get_available_parameters (result : String) : List String :=
  match optionsBlock result.data with
  | some block => ((block.splitOn '\n').filterMap lineArg).map (fun cs => ⟨cs⟩)
  | none => []

/-! ## Result store and execution engine (modelled from the spec)

The `DatabaseManager` / `CampaignManager` implementation is not part of the
repository snapshot (only `tests/test_database.py` and `cli.py`, its callers,
are), so the store's allocator and the engine's expansion are modelled from
the specification text. -/

/-- Modelled from the spec: `DatabaseManager.get_next_rngruns(count)`
(ResultStore, spec §4.2) is missing from src/ (only its tests exist).  Spec:
"returns the `count` smallest non-negative integers not already used as the
repetition index among results sharing the queried fingerprint, filling gaps
before extending upward."  `used` is the list of repetition indices already
present for the queried fingerprint.  Since at most `used.length` candidates
can be rejected, the `count` smallest unused values all lie below
`count + used.length`. -/
def get_next_rngruns (used : List Nat) (count : Nat) : List Nat :=
  ((List.range (count + used.length)).filter (fun n => !(used.contains n))).take count

/-- A fingerprint: a parameter combination with the repetition index
removed (spec §3). -/
abbrev Fingerprint := List (String × String)

/-- Modelled from the spec: a stored result, reduced to the part relevant to
repetition accounting — its fingerprint and its repetition index. -/
abbrev StoredResult := Fingerprint × Nat

/-- The repetition indices already used among results sharing fingerprint
`fp`. -/
def usedRuns (store : List StoredResult) (fp : Fingerprint) : List Nat :=
  (store.filter (fun r => r.1 = fp)).map (fun r => r.2)

/-- Modelled from the spec: the cartesian product over all list-valued
parameters (ParameterSpace, spec §4.1), producing fingerprints. -/
def cartesianProduct : List (String × List String) → List Fingerprint
  | [] => [[]]
  | (name, vals) :: rest =>
    (vals.map (fun v => (cartesianProduct rest).map (fun tail => (name, v) :: tail))).flatten

/-- Modelled from the spec: `ParameterSpace.expand(spec, runs)` against the
current store (spec §4.1, missing from src/): for each fingerprint of the
(deduplicated, spec §1) cartesian product, if `existing >= runs` the
fingerprint yields no combinations; otherwise `runs - existing` fresh
repetition indices are requested from the store's allocator
(`get_next_rngruns`, fingerprint-scoped). -/
def expand (ps : List (String × List String)) (runs : Nat) (store : List StoredResult) :
    List StoredResult :=
  ((cartesianProduct ps).dedup.map (fun fp =>
    let used := usedRuns store fp
    if runs ≤ used.length then []
    else (get_next_rngruns used (runs - used.length)).map (fun r => (fp, r)))).flatten

/-- Modelled from the spec: `run_missing_simulations(param_spec, runs)`
(ExecutionEngine, spec §4.4, missing from src/) after a successful run:
every missing combination computed by `expand` has been executed and its
result inserted into the store. -/
def run_missing_simulations (ps : List (String × List String)) (runs : Nat)
    (store : List StoredResult) : List StoredResult :=
  store ++ expand ps runs store

/-! ## Heap model for the result-dictionary copy (runner.py lines 226-232)

Claim C10 is about Python object identity (the yielded result's `params`
dict is a fresh object, and the input combination object is never written),
so this fragment of `run_simulations` is re-embedded with an explicit heap:
dictionaries live at addresses, and the loop body allocates a fresh empty
dict and `update`s it from the input combination. -/

/-- A heap of dictionaries: contents per address, plus the next fresh
address. -/
structure Heap where
  contents : Nat → List (String × String)
  next : Nat

/-- Python `d[k] = v` on an association list: overwrite in place if the key
is present, append otherwise. -/
def dictSet (d : List (String × String)) (k v : String) : List (String × String) :=
  if d.any (fun kv => kv.1 = k) then
    d.map (fun kv => if kv.1 = k then (k, v) else kv)
  else d ++ [(k, v)]

/-- Python `target.update(src)`: set each key/value of `src` in order. -/
def dictUpdate (target src : List (String × String)) : List (String × String) :=
  src.foldl (fun acc kv => dictSet acc kv.1 kv.2) target

/-- Lines 228-232 of runner.py on the heap: `current_result['params'] = {}`
allocates a fresh empty dict at address `h.next`, and
`current_result['params'].update(parameter)` fills it from the combination
stored at `paramAddr`.  Returns the new heap and the address of the fresh
dict. -/
def buildResultParams (h : Heap) (paramAddr : Nat) : Heap × Nat :=
  let a := h.next
  let h1 : Heap := { contents := fun b => if b = a then [] else h.contents b, next := h.next + 1 }
  let h2 : Heap :=
    { contents := fun b => if b = a then dictUpdate (h1.contents a) (h1.contents paramAddr)
        else h1.contents b
      next := h1.next }
  (h2, a)

/-- The params-copying effect of the whole `run_simulations` loop: one
`buildResultParams` per input combination (given by address), returning the
final heap and the addresses of the yielded `params` dicts, in order. -/
def runParamsCopies (h : Heap) : List Nat → Heap × List Nat
  | [] => (h, [])
  | a :: as =>
    let first := buildResultParams h a
    let rest := runParamsCopies first.1 as
    (rest.1, first.2 :: rest.2)

/-! ## Theorems: repetition-index allocation (C1) -/

/-- The unused candidates below `count + used.length` are at least `count`
many: at most `used.length` elements of the range are rejected. -/
lemma get_next_rngruns_le_length_filter (used : List Nat) (count : Nat) :
    count ≤ (((List.range (count + used.length)).filter (fun n => !(used.contains n)))).length := by
  have hsplit := List.length_eq_length_filter_add (l := List.range (count + used.length))
    (fun n => used.contains n)
  have hle : ((List.range (count + used.length)).filter (fun n => used.contains n)).length ≤
      used.length := by
    have hnd : ((List.range (count + used.length)).filter (fun n => used.contains n)).Nodup :=
      (List.nodup_range _).filter _
    have hsub : ((List.range (count + used.length)).filter
        (fun n => used.contains n)).toFinset ⊆ used.toFinset := by
      intro x hx
      rw [List.mem_toFinset] at hx ⊢
      have := (List.mem_filter.mp hx).2
      simpa [List.elem_iff] using this
    calc ((List.range (count + used.length)).filter (fun n => used.contains n)).length
        = ((List.range (count + used.length)).filter
            (fun n => used.contains n)).toFinset.card := (List.toFinset_card_of_nodup hnd).symm
      _ ≤ used.toFinset.card := Finset.card_le_card hsub
      _ ≤ used.length := List.toFinset_card_le used
  have hlen : (List.range (count + used.length)).length = count + used.length :=
    List.length_range _
  omega

/-- The allocator returns exactly `count` indices. -/
lemma get_next_rngruns_length (used : List Nat) (count : Nat) :
    (get_next_rngruns used count).length = count := by
  unfold get_next_rngruns
  rw [List.length_take]
  exact Nat.min_eq_left (get_next_rngruns_le_length_filter used count)

/-- The allocator's output is strictly increasing. -/
lemma get_next_rngruns_sorted (used : List Nat) (count : Nat) :
    (get_next_rngruns used count).Pairwise (· < ·) :=
  List.Pairwise.sublist ((List.take_sublist _ _).trans (List.filter_sublist _)) (List.sorted_lt_range _)

/-- Every allocated index is unused and below `count + used.length`. -/
lemma get_next_rngruns_mem (used : List Nat) (count : Nat) :
    ∀ x ∈ get_next_rngruns used count, x ∉ used ∧ x < count + used.length := by
  intro x hx
  have hx' : x ∈ (List.range (count + used.length)).filter (fun n => !(used.contains n)) :=
    ((List.take_sublist _ _).subset hx)
  have h1 := (List.mem_filter.mp hx').1
  have h2 := (List.mem_filter.mp hx').2
  refine ⟨?_, List.mem_range.mp h1⟩
  simpa [List.elem_iff] using h2

/-- Gap-filling: any unused index not allocated exceeds every allocated
index (so the allocator returns the `count` smallest unused indices). -/
lemma get_next_rngruns_gaps (used : List Nat) (count : Nat) :
    ∀ m, m ∉ used → m ∉ get_next_rngruns used count →
      ∀ x ∈ get_next_rngruns used count, x < m := by
  intro m hmu hmr x hx
  by_cases hlt : m < count + used.length
  · have hmF : m ∈ (List.range (count + used.length)).filter (fun n => !(used.contains n)) := by
      refine List.mem_filter.mpr ⟨List.mem_range.mpr hlt, ?_⟩
      simpa [List.elem_iff] using hmu
    set F := (List.range (count + used.length)).filter (fun n => !(used.contains n)) with hF
    have hsorted : F.Pairwise (· < ·) := List.Pairwise.sublist (List.filter_sublist _) (List.sorted_lt_range _)
    have hdecomp : F.take count ++ F.drop count = F := List.take_append_drop count F
    have hcross : ∀ a ∈ F.take count, ∀ b ∈ F.drop count, a < b := by
      have := List.pairwise_append.mp (hdecomp ▸ hsorted)
      exact this.2.2
    have hmdrop : m ∈ F.drop count := by
      rcases (List.mem_append.mp (hdecomp ▸ hmF)) with h | h
      · exact absurd h hmr
      · exact h
    exact hcross x hx m hmdrop
  · have := (get_next_rngruns_mem used count x hx).2
    omega

/-- C1: for every fingerprint-scoped used set, `get_next_rngruns(count)`
returns the `count` smallest non-negative integers not already used as the
repetition index, filling gaps before extending upward; with no results it
returns `[0]`; with used set `{2}` it returns `[0]`; with used set `{0,2}`,
count 1 returns `[1]` and count 3 returns `[1,3,4]`. -/
theorem get_next_rngruns_spec :
    (∀ (used : List Nat) (count : Nat),
      (get_next_rngruns used count).length = count ∧
      (get_next_rngruns used count).Pairwise (· < ·) ∧
      (∀ x ∈ get_next_rngruns used count, x ∉ used) ∧
      (∀ m, m ∉ used → m ∉ get_next_rngruns used count →
        ∀ x ∈ get_next_rngruns used count, x < m)) ∧
    get_next_rngruns [] 1 = [0] ∧
    get_next_rngruns [2] 1 = [0] ∧
    get_next_rngruns [0, 2] 1 = [1] ∧
    get_next_rngruns [0, 2] 3 = [1, 3, 4] := by
  refine ⟨fun used count => ⟨get_next_rngruns_length used count,
    get_next_rngruns_sorted used count,
    fun x hx => (get_next_rngruns_mem used count x hx).1,
    get_next_rngruns_gaps used count⟩, ?_, ?_, ?_, ?_⟩ <;> decide

/-- Witness for C1 at a concrete input: 6 is unused and unallocated for used
set `{0,2}` and count 3, and the allocated index 4 is below it. -/
theorem get_next_rngruns_spec_witness :
    6 ∉ ([0, 2] : List Nat) ∧ 6 ∉ get_next_rngruns [0, 2] 3 ∧
      4 ∈ get_next_rngruns [0, 2] 3 ∧ 4 < 6 :=
  ⟨by decide, by decide, by decide,
    (get_next_rngruns_spec.1 [0, 2] 3).2.2.2 6 (by decide) (by decide) 4 (by decide)⟩

/-! ## Theorems: script-executable resolution (C3) -/

/-- Unfolding one step of Python's `max`. -/
lemma pythonMax_cons {α : Type} (key : α → ℚ) (x y : α) (ys : List α) :
    pythonMax key x (y :: ys) = pythonMax key (if key x < key y then y else x) ys := rfl

/-- Python's `max` returns an element of the sequence. -/
lemma pythonMax_mem {α : Type} (key : α → ℚ) :
    ∀ (xs : List α) (x : α), pythonMax key x xs = x ∨ pythonMax key x xs ∈ xs
  | [], _ => .inl rfl
  | y :: ys, x => by
    rw [pythonMax_cons]
    rcases pythonMax_mem key ys (if key x < key y then y else x) with h | h
    · rw [h]
      split
      · exact .inr (List.mem_cons_self _ _)
      · exact .inl rfl
    · exact .inr (List.mem_cons_of_mem _ h)

/-- Python's `max` attains the maximal key. -/
lemma pythonMax_le {α : Type} (key : α → ℚ) :
    ∀ (xs : List α) (x : α), ∀ y ∈ x :: xs, key y ≤ key (pythonMax key x xs)
  | [], x, y, hy => by
    simp only [List.mem_singleton] at hy
    simp [hy, pythonMax]
  | z :: zs, x, y, hy => by
    rw [pythonMax_cons]
    have hx : key x ≤ key (if key x < key z then z else x) := by
      split <;> [exact le_of_lt (by assumption); exact le_rfl]
    have hz : key z ≤ key (if key x < key z then z else x) := by
      split <;> [exact le_rfl; exact le_of_not_lt (by assumption)]
    have hbest := pythonMax_le key zs (if key x < key z then z else x)
      (if key x < key z then z else x) (List.mem_cons_self _ _)
    rcases List.mem_cons.mp hy with rfl | hy'
    · exact hx.trans hbest
    · rcases List.mem_cons.mp hy' with rfl | hy''
      · exact hz.trans hbest
      · exact pythonMax_le key zs (if key x < key z then z else x) y
          (List.mem_cons_of_mem _ hy'')

/-- C3: among all executables the build tool reports as runnable, exactly
those whose name contains the requested script name as a substring are
candidates; with no candidate, construction fails (ScriptNotFound /
`ValueError`); otherwise the candidate maximizing
`len(script)/len(candidate)` is selected; for runnable names
`["foo","foobar","barfoo"]` and script `"foo"` the selection is `"foo"`. -/
theorem selectScriptExecutable_spec :
    (∀ (path script : String) (programs : List String),
      (selectScriptExecutable path script programs = none ↔
        ∀ p ∈ programs, ¬ strContains p script) ∧
      (∀ m, selectScriptExecutable path script programs = some m →
        m.name ∈ programs ∧ strContains m.name script ∧ m.path = pathJoin path m.name ∧
        ∀ p ∈ programs, strContains p script →
          matchPercentage script p ≤ matchPercentage script m.name)) ∧
    selectScriptExecutable "/ns3" "foo" ["foo", "foobar", "barfoo"] =
      some ⟨"foo", "/ns3/foo"⟩ := by
  constructor
  · intro path script programs
    constructor
    · constructor
      · intro hnone p hp hcont
        rcases hmatch : findMatches path script programs with _ | ⟨m, ms⟩
        · have hnil : (programs.filter (fun program => strContains program script)) = [] := by
            unfold findMatches at hmatch
            exact List.map_eq_nil_iff.mp hmatch
          exact (List.filter_eq_nil_iff.mp hnil) p hp hcont
        · simp [selectScriptExecutable, hmatch] at hnone
      · intro hall
        have hnil : programs.filter (fun program => strContains program script) = [] :=
          List.filter_eq_nil_iff.mpr (by simpa using hall)
        simp [selectScriptExecutable, findMatches, hnil]
    · intro m hm
      rcases hmatch : findMatches path script programs with _ | ⟨m0, ms⟩
      · simp [selectScriptExecutable, hmatch] at hm
      · have hm' : m = pythonMax (fun x => matchPercentage script x.name) m0 ms := by
          simpa [selectScriptExecutable, hmatch] using hm.symm
        have hmem : m ∈ m0 :: ms := by
          rcases pythonMax_mem (fun x => matchPercentage script x.name) ms m0 with h | h
          · rw [hm', h]; exact List.mem_cons_self _ _
          · rw [hm']; exact List.mem_cons_of_mem _ h
        have hmem' : m ∈ findMatches path script programs := by rw [hmatch]; exact hmem
        have hshape : m.name ∈ programs ∧ strContains m.name script ∧
            m.path = pathJoin path m.name := by
          rcases List.mem_map.mp hmem' with ⟨program, hprog, hmk⟩
          have h1 := (List.mem_filter.mp hprog).1
          have h2 := (List.mem_filter.mp hprog).2
          cases hmk
          exact ⟨h1, h2, rfl⟩
        refine ⟨hshape.1, hshape.2.1, hshape.2.2, ?_⟩
        intro p hp hpc
        have hpmem : (⟨p, pathJoin path p⟩ : ScriptMatch) ∈ findMatches path script programs :=
          List.mem_map.mpr ⟨p, List.mem_filter.mpr ⟨hp, hpc⟩, rfl⟩
        have := pythonMax_le (fun x => matchPercentage script x.name) ms m0
          ⟨p, pathJoin path p⟩ (by rw [← hmatch]; exact hpmem)
        rw [← hm'] at this
        exact this
  · show selectScriptExecutable "/ns3" "foo" ["foo", "foobar", "barfoo"] = _
    have e1 : ("foo" : String).length = 3 := rfl
    have e2 : ("foobar" : String).length = 6 := rfl
    have e3 : ("barfoo" : String).length = 6 := rfl
    rw [selectScriptExecutable]
    norm_num [findMatches, strContains, pythonMax, matchPercentage, e1, e2, e3]
    rfl

/-- Witness for C3: the resolution picks `"foo"`, and the competing
candidate `"foobar"` has a no-better ratio. -/
theorem selectScriptExecutable_spec_witness :
    selectScriptExecutable "/ns3" "foo" ["foo", "foobar", "barfoo"] =
      some ⟨"foo", "/ns3/foo"⟩ ∧
    matchPercentage "foo" "foobar" ≤ matchPercentage "foo" "foo" :=
  ⟨selectScriptExecutable_spec.2,
    ((selectScriptExecutable_spec.1 "/ns3" "foo" ["foo", "foobar", "barfoo"]).2
      ⟨"foo", "/ns3/foo"⟩ selectScriptExecutable_spec.2).2.2.2 "foobar" (by decide) (by decide)⟩

/-! ## Theorems: spawned-process environment (C9) -/

/-- The trace of one iteration, spelled out: both branches of the
return-code test produce the same trace. -/
lemma runOne_fst (r : SimulationRunner) (e : ExecEnv) (d : String) (idx : Nat)
    (p : Combination) : (runOne r e d idx p).1 =
    { command := r.script_executable :: p.map paramToken
      env := r.environment
      cwd := pathJoin d (e.ids idx)
      stdoutPath := pathJoin (pathJoin d (e.ids idx)) "stdout"
      stderrPath := pathJoin (pathJoin d (e.ids idx)) "stderr"
      stdoutContent := e.simStdout idx
      stderrContent := e.simStderr idx } := by
  unfold runOne
  split <;> rfl

/-- Every iteration of the loop passes `self.environment` to
`subprocess.call`, whatever the parent environment is. -/
lemma runSimulationsFrom_env (r : SimulationRunner) (e : ExecEnv) (d : String) :
    ∀ (l : List Combination) (idx : Nat) (tr : RunTrace),
      tr ∈ (runSimulationsFrom r e d idx l).1 → tr.env = r.environment := by
  intro l
  induction l with
  | nil => intro idx tr h; simp [runSimulationsFrom] at h
  | cons p ps ih =>
    intro idx tr h
    rw [runSimulationsFrom] at h
    have htr' : (runOne r e d idx p).1.env = r.environment := by rw [runOne_fst]
    rcases hro : runOne r e d idx p with ⟨tr', res⟩
    rw [hro] at h htr'
    cases res with
    | error f =>
      simp only [List.mem_singleton] at h
      rw [h]; exact htr'
    | ok rr =>
      rcases List.mem_cons.mp h with rfl | h'
      · exact htr'
      · exact ih (idx + 1) tr h'

/-- C9: the environment passed to every spawned simulator process (both
simulation runs and parameter discovery) is exactly `self.environment`,
replacing the parent environment (the third conjunct holds for every oracle,
in particular for every `osEnviron`); with `optimized=True` both variables
are `<path>/build/optimized:<path>/build/optimized/lib`, with
`optimized=False` both are `<path>/build` only, omitting `<path>/build/lib`. -/
theorem environment_spec :
    (∀ path : String, makeEnvironment path true =
      [("LD_LIBRARY_PATH", path ++ "/build/optimized" ++ ":" ++ path ++ "/build/optimized/lib"),
       ("DYLD_LIBRARY_PATH", path ++ "/build/optimized" ++ ":" ++ path ++ "/build/optimized/lib")]) ∧
    (∀ path : String, makeEnvironment path false =
      [("LD_LIBRARY_PATH", path ++ "/build"), ("DYLD_LIBRARY_PATH", path ++ "/build")]) ∧
    (∀ (runner : SimulationRunner) (e : ExecEnv) (l : List Combination) (d : String),
      ∀ tr ∈ (run_simulations runner e l d).1, tr.env = runner.environment) ∧
    (∀ runner : SimulationRunner,
      (availableParametersCall runner).2.1 = runner.environment) := by
  refine ⟨?_, ?_, ?_, fun _ => rfl⟩
  · intro path
    have h1 : ("/" : String) ++ "build/optimized" = "/build/optimized" := rfl
    have h2 : ("/" : String) ++ "build/optimized/lib" = "/build/optimized/lib" := rfl
    simp [makeEnvironment, pathJoin, String.append_assoc, h1, h2]
  · intro path
    have h1 : ("/" : String) ++ "build" = "/build" := rfl
    simp [makeEnvironment, pathJoin, String.append_assoc, h1]
  · intro runner e l d tr htr
    exact runSimulationsFrom_env runner e d l 0 tr htr

/-- Concrete runner used by witnesses. -/
def runnerW : SimulationRunner :=
  { path := "/ns3"
    script := "scr"
    environment := makeEnvironment "/ns3" true
    script_executable := "/ns3/build/optimized/scr-exe" }

/-- Concrete effect oracle used by witnesses: the combination at position 1
fails with exit code 2, all others succeed. -/
def execEnvW : ExecEnv :=
  { ids := fun i => "id" ++ toString i
    returncode := fun i => if i = 1 then 2 else 0
    simStdout := fun i => "out" ++ toString i
    simStderr := fun i => "err" ++ toString i
    tStart := fun _ => 0
    tEnd := fun _ => 0
    osEnviron := [("HOME", "/root")] }

/-- The trace of the single run in the C9 witness. -/
def traceW : RunTrace :=
  { command := ["/ns3/build/optimized/scr-exe", "--a=1"]
    env := makeEnvironment "/ns3" true
    cwd := "/data/id0"
    stdoutPath := "/data/id0/stdout"
    stderrPath := "/data/id0/stderr"
    stdoutContent := "out0"
    stderrContent := "err0" }

/-- Witness for C9: the one trace of a concrete run carries exactly the
runner's two-variable environment. -/
theorem environment_spec_witness :
    traceW ∈ (run_simulations runnerW execEnvW [[("a", "1")]] "/data").1 ∧
      traceW.env = runnerW.environment :=
  ⟨by decide,
    environment_spec.2.2.1 runnerW execEnvW [[("a", "1")]] "/data" traceW (by decide)⟩

/-! ## Theorems: build-progress stream (C5) -/

/-- The yielded progress pairs are exactly one per line on which the
`[<done>/<total>]` pattern matches. -/
lemma get_build_output_fst (rc : Int) (e o : String) :
    ∀ lines : List String,
      (get_build_output lines rc e o).1 = lines.filterMap parseProgressLine := by
  intro lines
  induction lines with
  | nil => rfl
  | cons line rest ih =>
    rw [get_build_output, List.filterMap_cons]
    cases h : parseProgressLine line <;> simp [h, ih]

/-- The end-of-stream outcome depends only on the return code. -/
lemma get_build_output_snd (rc : Int) (e o : String) :
    ∀ lines : List String,
      (get_build_output lines rc e o).2 =
        if 0 < rc then some ⟨e, o⟩ else none := by
  intro lines
  induction lines with
  | nil => rfl
  | cons line rest ih =>
    rw [get_build_output]
    cases h : parseProgressLine line <;> simp [h, ih]

/-- C5: the build-progress operation yields one `(done,total)` pair per
build-output line matching the `[<done>/<total>]` pattern, as a finite
sequence ending when the build process exits; when the build process exits
with a non-zero exit code it raises a BuildFailure carrying the captured
output, whether or not any progress pair was yielded. -/
theorem get_build_output_spec :
    (∀ (lines : List String) (rc : Int) (e o : String),
      (get_build_output lines rc e o).1 = lines.filterMap parseProgressLine) ∧
    (∀ (lines : List String) (rc : Int) (e o : String), 0 ≤ rc →
      (((get_build_output lines rc e o).2 ≠ none) ↔ rc ≠ 0) ∧
      ∀ f, (get_build_output lines rc e o).2 = some f → f.stderr = e ∧ f.stdout = o) ∧
    get_build_output ["Waf: Entering directory", "[ 1/3] Compiling a.cc", "link",
      "[2/3] Compiling b.cc"] 0 "" "" = ([(1, 3), (2, 3)], none) ∧
    (get_build_output ["no progress seen"] 2 "E" "O").2 =
      some { stderr := "E", stdout := "O" } := by
  refine ⟨fun lines rc e o => get_build_output_fst rc e o lines, ?_, by decide, by decide⟩
  intro lines rc e o hrc
  rw [get_build_output_snd rc e o lines]
  constructor
  · constructor
    · intro hne
      rcases lt_or_eq_of_le hrc with h | h
      · omega
      · rw [← h] at hne; simp at hne
    · intro hne
      have : 0 < rc := lt_of_le_of_ne hrc (Ne.symm hne)
      simp [this]
  · intro f hf
    by_cases h : 0 < rc
    · simp only [h, if_pos] at hf
      cases hf
      exact ⟨rfl, rfl⟩
    · simp [h] at hf

/-- Witness for C5: a failing build (exit code 2) with no matching progress
line still raises, carrying the captured output. -/
theorem get_build_output_spec_witness :
    ((get_build_output ["no progress seen"] 2 "E" "O").2 ≠ none) ∧
      (0 : Int) ≤ 2 :=
  ⟨(get_build_output_spec.2.1 ["no progress seen"] 2 "E" "O" (by decide)).1.mpr (by decide),
    by decide⟩

/-! ## Theorems: parameter discovery (C6) -/

/-- A realistic help output with both markers, used in C6. -/
def helpW : String :=
  "scratch-simulator\n\nProgram Options:\n    --verbose:  produce verbose output [false]\n    --duration:  simulation duration [10]\nGeneral Arguments:\n    --PrintHelp: Print this help message.\n"

/-- A help output with no `Program Options/Arguments:` marker, used in C6's
witness. -/
def helpNoMarkersW : String := "Usage: thing [opts]\n    --alpha: not in any block\n"

/-- The `Program ...:` header does not match at the end of the text. -/
lemma progHeaderLen_nil : progHeaderLen [] = none := rfl

/-- The `General Arguments` marker does not match at the end of the text. -/
lemma generalHeaderAt_nil : generalHeaderAt [] = false := rfl

/-- If one of the two markers occurs nowhere in the text, the outer pattern
finds no match. -/
lemma optionsBlock_eq_none (cs : List Char)
    (h : (∀ i, i < cs.length → progHeaderLen (cs.drop i) = none) ∨
      (∀ g, g < cs.length → generalHeaderAt (cs.drop g) = false)) :
    optionsBlock cs = none := by
  rcases h with h | h
  · have hall : ∀ i ∈ List.range (cs.length + 1), progHeaderLen (cs.drop i) = none := by
      intro i hi
      rcases Nat.lt_or_ge i cs.length with hlt | hge
      · exact h i hlt
      · rw [List.drop_eq_nil_of_le hge]
        exact progHeaderLen_nil
    have hnil : (List.range (cs.length + 1)).filterMap (fun i =>
        match progHeaderLen (cs.drop i) with
        | some len =>
          if ((List.range (cs.length + 1)).filter
              (fun g => generalHeaderAt (cs.drop g))).any (fun g => i + len ≤ g)
          then some (i + len) else none
        | none => none) = [] := by
      rw [List.filterMap_eq_nil_iff]
      intro i hi
      rw [hall i hi]
    unfold optionsBlock
    simp only [hnil]
    rfl
  · have hgnil : (List.range (cs.length + 1)).filter
        (fun g => generalHeaderAt (cs.drop g)) = [] := by
      rw [List.filter_eq_nil_iff]
      intro g hg
      rcases Nat.lt_or_ge g cs.length with hlt | hge
      · simp [h g hlt]
      · rw [List.drop_eq_nil_of_le hge]
        simp [generalHeaderAt_nil]
    have hnil : (List.range (cs.length + 1)).filterMap (fun i =>
        match progHeaderLen (cs.drop i) with
        | some len =>
          if ((List.range (cs.length + 1)).filter
              (fun g => generalHeaderAt (cs.drop g))).any (fun g => i + len ≤ g)
          then some (i + len) else none
        | none => none) = [] := by
      rw [List.filterMap_eq_nil_iff]
      intro i hi
      rw [hgnil]
      cases progHeaderLen (cs.drop i) <;> simp
    unfold optionsBlock
    simp only [hnil]
    rfl

set_option maxRecDepth 10000 in
/-- C6: parameter discovery invokes the executable with the fixed
`--PrintHelp` flag; it returns the option names matched by a `--<name>:`
pattern inside the block between the `Program Options/Arguments:` and
`General Arguments` markers (each returned name arises from some line of
that block); and whenever either marker is absent from the help output it
returns the empty list. -/
theorem get_available_parameters_spec :
    (∀ runner : SimulationRunner,
      (availableParametersCall runner).1 = [runner.script_executable, "--PrintHelp"]) ∧
    (∀ result : String,
      ((∀ i, i < result.data.length → progHeaderLen (result.data.drop i) = none) ∨
       (∀ g, g < result.data.length → generalHeaderAt (result.data.drop g) = false)) →
      get_available_parameters result = []) ∧
    (∀ (result : String) (block : List Char), optionsBlock result.data = some block →
      ∀ s ∈ get_available_parameters result,
        ∃ line ∈ block.splitOn '\n', lineArg line = some s.data) ∧
    get_available_parameters helpW = ["verbose", "duration"] := by
  refine ⟨fun _ => rfl, ?_, ?_, by decide⟩
  · intro result h
    unfold get_available_parameters
    rw [optionsBlock_eq_none result.data h]
  · intro result block hblock s hs
    unfold get_available_parameters at hs
    rw [hblock] at hs
    rcases List.mem_map.mp hs with ⟨cs, hcs, rfl⟩
    rcases List.mem_filterMap.mp hcs with ⟨line, hline, harg⟩
    exact ⟨line, hline, harg⟩

/-- Witness for C6: a help output lacking the `Program Options/Arguments:`
marker yields the empty parameter list, even though a `--<name>:` line is
present. -/
theorem get_available_parameters_spec_witness :
    get_available_parameters helpNoMarkersW = [] :=
  get_available_parameters_spec.2.1 helpNoMarkersW (Or.inl (by decide))

/-! ## Theorems: the run_simulations loop (C2, C4, C7) -/

/-- The index `firstFailFrom` never exceeds the number of submitted combinations. -/
lemma firstFailFrom_le (e : ExecEnv) : ∀ (n idx : Nat), firstFailFrom e idx n ≤ n := by
  intro n
  induction n with
  | zero => intro idx; rfl
  | succ n ih =>
    intro idx
    rw [firstFailFrom]
    split
    · exact Nat.zero_le _
    · exact Nat.succ_le_succ (ih (idx + 1))

/-- If all combinations succeed, `firstFailFrom` is the full length. -/
lemma firstFailFrom_eq_of_all (e : ExecEnv) :
    ∀ (n idx : Nat), (∀ j, j < n → ¬ 0 < e.returncode (idx + j)) →
      firstFailFrom e idx n = n := by
  intro n
  induction n with
  | zero => intro idx _; rfl
  | succ n ih =>
    intro idx hall
    have h0 : ¬ 0 < e.returncode idx := by simpa using hall 0 (Nat.succ_pos n)
    have hrest : ∀ j, j < n → ¬ 0 < e.returncode (idx + 1 + j) := by
      intro j hj
      rw [show idx + 1 + j = idx + (j + 1) from by omega]
      exact hall (j + 1) (by omega)
    rw [firstFailFrom, if_neg h0, ih (idx + 1) hrest]

/-- A prefix of successes pushes `firstFailFrom` at least that far. -/
lemma firstFailFrom_ge (e : ExecEnv) :
    ∀ (n idx i : Nat), i ≤ n → (∀ j, j < i → ¬ 0 < e.returncode (idx + j)) →
      i ≤ firstFailFrom e idx n := by
  intro n
  induction n with
  | zero => intro idx i hi _; omega
  | succ n ih =>
    intro idx i hi hpre
    cases i with
    | zero => exact Nat.zero_le _
    | succ i' =>
      have hrest : ∀ j, j < i' → ¬ 0 < e.returncode (idx + 1 + j) := by
        intro j hj
        rw [show idx + 1 + j = idx + (j + 1) from by omega]
        exact hpre (j + 1) (by omega)
      rw [firstFailFrom, if_neg (by simpa using hpre 0 (Nat.succ_pos i'))]
      exact Nat.succ_le_succ (ih (idx + 1) i' (Nat.le_of_succ_le_succ hi) hrest)

/-- The combinations strictly before `firstFailFrom` all succeed. -/
lemma firstFailFrom_lt_success (e : ExecEnv) :
    ∀ (n idx j : Nat), j < firstFailFrom e idx n → ¬ 0 < e.returncode (idx + j) := by
  intro n
  induction n with
  | zero => intro idx j hj; rw [firstFailFrom] at hj; omega
  | succ n ih =>
    intro idx j hj
    rw [firstFailFrom] at hj
    by_cases hrc : 0 < e.returncode idx
    · rw [if_pos hrc] at hj; omega
    · rw [if_neg hrc] at hj
      cases j with
      | zero => simpa using hrc
      | succ j' =>
        have := ih (idx + 1) j' (by omega)
        simpa [Nat.add_assoc, Nat.add_comm 1 j'] using this

/-- If some combination fails, the one at `firstFailFrom` does. -/
lemma firstFailFrom_fail (e : ExecEnv) :
    ∀ (n idx : Nat), firstFailFrom e idx n < n →
      0 < e.returncode (idx + firstFailFrom e idx n) := by
  intro n
  induction n with
  | zero => intro idx h; rw [firstFailFrom] at h; omega
  | succ n ih =>
    intro idx h
    rw [firstFailFrom] at h ⊢
    by_cases hrc : 0 < e.returncode idx
    · rw [if_pos hrc]
      simpa using hrc
    · rw [if_neg hrc] at h ⊢
      have := ih (idx + 1) (by omega)
      simpa [Nat.add_assoc, Nat.add_comm 1 (firstFailFrom e (idx + 1) n)] using this

/-- The yielded results are exactly the successes before the first failing
combination, in submission order, with id and elapsed time per position. -/
lemma runSimulationsFrom_results (r : SimulationRunner) (e : ExecEnv) (d : String) :
    ∀ (l : List Combination) (idx : Nat),
      (runSimulationsFrom r e d idx l).2.1 =
        ((l.take (firstFailFrom e idx l.length)).enumFrom idx).map
          (fun pr => mkSuccess e pr.1 pr.2) := by
  intro l
  induction l with
  | nil => intro idx; rfl
  | cons p ps ih =>
    intro idx
    rw [runSimulationsFrom, runOne]
    dsimp only
    by_cases hrc : 0 < e.returncode idx
    · rw [if_pos hrc]
      simp only [List.length_cons, firstFailFrom, if_pos hrc, List.take_zero]
      rfl
    · rw [if_neg hrc]
      simp only [List.length_cons, firstFailFrom, if_neg hrc, List.take_succ_cons]
      dsimp only [List.enumFrom, List.map]
      rw [← ih (idx + 1)]
      rfl

/-- On a strictly positive return code, the iteration produces the
exception. -/
lemma runOne_snd_pos (r : SimulationRunner) (e : ExecEnv) (d : String) (idx : Nat)
    (p : Combination) (h : 0 < e.returncode idx) :
    (runOne r e d idx p).2 = Except.error
      { params := p
        stderr := e.simStderr idx
        stdout := e.simStdout idx
        reproCommand := reproductionCommand r.script p } := by
  unfold runOne
  rw [if_pos h]

/-- On a non-positive return code, the iteration yields the result. -/
lemma runOne_snd_nonpos (r : SimulationRunner) (e : ExecEnv) (d : String) (idx : Nat)
    (p : Combination) (h : ¬ 0 < e.returncode idx) :
    (runOne r e d idx p).2 = Except.ok (mkSuccess e idx p) := by
  unfold runOne
  rw [if_neg h]
  rfl

/-- The executed iterations are the combinations up to and including the
first failing one, each with its spelled-out trace. -/
lemma runSimulationsFrom_traces (r : SimulationRunner) (e : ExecEnv) (d : String) :
    ∀ (l : List Combination) (idx : Nat),
      (runSimulationsFrom r e d idx l).1 =
        ((l.take (min (firstFailFrom e idx l.length + 1) l.length)).enumFrom idx).map
          (fun pr => (runOne r e d pr.1 pr.2).1) := by
  intro l
  induction l with
  | nil => intro idx; rfl
  | cons p ps ih =>
    intro idx
    rw [runSimulationsFrom]
    rcases hro : runOne r e d idx p with ⟨tr, res⟩
    have htr : tr = (runOne r e d idx p).1 := by rw [hro]
    have hres : res = (runOne r e d idx p).2 := by rw [hro]
    by_cases hrc : 0 < e.returncode idx
    · rw [runOne_snd_pos r e d idx p hrc] at hres
      subst hres
      simp only [List.length_cons, firstFailFrom, if_pos hrc, Nat.zero_add,
        Nat.min_eq_left (Nat.succ_le_succ (Nat.zero_le _)), List.take_succ_cons,
        List.take_zero]
      dsimp only [List.enumFrom, List.map]
      rw [htr]
    · rw [runOne_snd_nonpos r e d idx p hrc] at hres
      subst hres
      simp only [List.length_cons, firstFailFrom, if_neg hrc]
      rw [Nat.succ_min_succ]
      simp only [List.take_succ_cons]
      dsimp only [List.enumFrom, List.map]
      rw [htr, ← ih (idx + 1)]

/-- The loop raises no exception iff every submitted combination's process
exits with a non-positive return code. -/
lemma runSimulationsFrom_failure_none (r : SimulationRunner) (e : ExecEnv) (d : String) :
    ∀ (l : List Combination) (idx : Nat),
      ((runSimulationsFrom r e d idx l).2.2 = none ↔
        ∀ j, j < l.length → ¬ 0 < e.returncode (idx + j)) := by
  intro l
  induction l with
  | nil =>
    intro idx
    simp [runSimulationsFrom]
  | cons p ps ih =>
    intro idx
    rw [runSimulationsFrom, runOne]
    dsimp only
    by_cases hrc : 0 < e.returncode idx
    · rw [if_pos hrc]
      simp only [List.length_cons]
      constructor
      · intro h; cases h
      · intro hall
        exact absurd hrc (by simpa using hall 0 (Nat.succ_pos _))
    · rw [if_neg hrc]
      dsimp only
      rw [ih (idx + 1)]
      constructor
      · intro hall j hj
        cases j with
        | zero => simpa using hrc
        | succ j' =>
          have := hall j' (by simpa using hj)
          simpa [Nat.add_assoc, Nat.add_comm 1 j'] using this
      · intro hall j hj
        have := hall (j + 1) (by simpa using hj)
        simpa [Nat.add_assoc, Nat.add_comm 1 j] using this

/-- The exception, when raised, belongs to the first failing combination and
carries its parameters, captured output and reproduction command. -/
lemma runSimulationsFrom_failure_some (r : SimulationRunner) (e : ExecEnv) (d : String) :
    ∀ (l : List Combination) (idx : Nat) (f : SimulationFailure),
      (runSimulationsFrom r e d idx l).2.2 = some f →
      ∃ j, ∃ hj : j < l.length, 0 < e.returncode (idx + j) ∧
        (∀ j', j' < j → ¬ 0 < e.returncode (idx + j')) ∧
        f = { params := l.get ⟨j, hj⟩
              stderr := e.simStderr (idx + j)
              stdout := e.simStdout (idx + j)
              reproCommand := reproductionCommand r.script (l.get ⟨j, hj⟩) } := by
  intro l
  induction l with
  | nil => intro idx f h; simp [runSimulationsFrom] at h
  | cons p ps ih =>
    intro idx f h
    rw [runSimulationsFrom, runOne] at h
    dsimp only at h
    by_cases hrc : 0 < e.returncode idx
    · rw [if_pos hrc] at h
      dsimp only at h
      cases h
      exact ⟨0, Nat.succ_pos _, by simpa using hrc, by omega, by simp⟩
    · rw [if_neg hrc] at h
      dsimp only at h
      rcases ih (idx + 1) f h with ⟨j, hj, hfail, hpre, hf⟩
      refine ⟨j + 1, Nat.succ_lt_succ hj, ?_, ?_, ?_⟩
      · simpa [Nat.add_assoc, Nat.add_comm 1 j] using hfail
      · intro j' hj'
        cases j' with
        | zero => simpa using hrc
        | succ j'' =>
          have := hpre j'' (by omega)
          simpa [Nat.add_assoc, Nat.add_comm 1 j''] using this
      · simpa [Nat.add_assoc, Nat.add_comm 1 j] using hf

/-- Joining paths under a fixed folder is injective in the directory name. -/
lemma pathJoin_right_injective (d : String) (a b : String)
    (h : pathJoin d a = pathJoin d b) : a = b := by
  unfold pathJoin at h
  have hd : (d ++ "/").data ++ a.data = (d ++ "/").data ++ b.data := by
    have := congrArg String.data h
    simpa [String.data_append] using this
  have : a.data = b.data := List.append_cancel_left hd
  exact String.ext this

/-- C7: the Sequential runner executes and emits results in submission
order, one combination at a time, and a failure aborts the remaining batch:
the yielded results are exactly the successes strictly before the first
failing combination (in input order), at most one combination past the
first failing one is ever executed, and no exception is raised iff every
combination succeeds. -/
theorem run_simulations_sequential_spec (runner : SimulationRunner) (e : ExecEnv)
    (l : List Combination) (d : String) :
    ((run_simulations runner e l d).2.1 =
      ((l.take (firstFailFrom e 0 l.length)).enumFrom 0).map
        (fun pr => mkSuccess e pr.1 pr.2)) ∧
    (run_simulations runner e l d).1.length ≤ firstFailFrom e 0 l.length + 1 ∧
    ((run_simulations runner e l d).2.2 = none ↔ firstFailFrom e 0 l.length = l.length) ∧
    (∀ j, j < firstFailFrom e 0 l.length → ¬ 0 < e.returncode j) ∧
    (firstFailFrom e 0 l.length < l.length →
      0 < e.returncode (firstFailFrom e 0 l.length)) := by
  refine ⟨runSimulationsFrom_results runner e d l 0, ?_, ?_, ?_, ?_⟩
  · rw [show (run_simulations runner e l d).1 = (runSimulationsFrom runner e d 0 l).1 from rfl,
      runSimulationsFrom_traces runner e d l 0]
    simp only [List.length_map, List.enumFrom_length, List.length_take]
    omega
  · rw [show (run_simulations runner e l d).2.2 = (runSimulationsFrom runner e d 0 l).2.2
      from rfl, runSimulationsFrom_failure_none runner e d l 0]
    constructor
    · intro hall
      exact firstFailFrom_eq_of_all e l.length 0 (by simpa using hall)
    · intro heq j hj
      have := firstFailFrom_lt_success e l.length 0 j (by omega)
      simpa using this
  · intro j hj
    have := firstFailFrom_lt_success e l.length 0 j hj
    simpa using this
  · intro hlt
    have := firstFailFrom_fail e l.length 0 hlt
    simpa using this

/-- Witness for C7: a concrete run in which every combination succeeds
raises no exception. -/
theorem run_simulations_sequential_spec_witness :
    (run_simulations runnerW execEnvW [[("a", "1")]] "/data").2.2 = none :=
  (run_simulations_sequential_spec runnerW execEnvW [[("a", "1")]] "/data").2.2.1.mpr
    (by decide)

/-- C2: for every parameter combination executed by `run_simulations` (the
earlier ones having succeeded), the run raises a SimulationFailure carrying
the captured stdout, the captured stderr and a ready-to-paste reproduction
command iff the spawned process exits with a non-zero exit code (exit codes
are non-negative; `0` is success); on exit code 0 the run yields, at the
combination's position, a Result whose params equal the combination and
whose meta carries the generated id and the measured elapsed time. -/
theorem run_simulations_exit_code_spec (runner : SimulationRunner) (e : ExecEnv)
    (l : List Combination) (d : String) (idx : Nat) (hidx : idx < l.length)
    (hprev : ∀ j, j < idx → e.returncode j = 0) (hexit : 0 ≤ e.returncode idx) :
    ((run_simulations runner e (l.take (idx + 1)) d).2.2 ≠ none ↔ e.returncode idx ≠ 0) ∧
    (∀ f, (run_simulations runner e (l.take (idx + 1)) d).2.2 = some f →
      f.stdout = e.simStdout idx ∧ f.stderr = e.simStderr idx ∧
      f.params = l.get ⟨idx, hidx⟩ ∧
      f.reproCommand = "./waf --run \"" ++ String.intercalate " "
        (runner.script :: (l.get ⟨idx, hidx⟩).map paramToken) ++ "\"") ∧
    (e.returncode idx = 0 →
      (run_simulations runner e l d).2.1[idx]? = some
        { params := l.get ⟨idx, hidx⟩
          meta := { id := e.ids idx, elapsed_time := e.tEnd idx - e.tStart idx } }) := by
  have hlen : (l.take (idx + 1)).length = idx + 1 := by
    rw [List.length_take]; omega
  refine ⟨?_, ?_, ?_⟩
  · rw [Ne, show (run_simulations runner e (l.take (idx + 1)) d).2.2 =
      (runSimulationsFrom runner e d 0 (l.take (idx + 1))).2.2 from rfl,
      runSimulationsFrom_failure_none runner e d (l.take (idx + 1)) 0]
    constructor
    · intro hnot h0
      apply hnot
      intro j hj
      rw [hlen] at hj
      simp only [Nat.zero_add]
      rcases Nat.lt_or_ge j idx with h | h
      · rw [hprev j h]; omega
      · have hji : j = idx := by omega
        rw [hji, h0]; omega
    · intro hne hall
      have := hall idx (by omega)
      simp only [Nat.zero_add] at this
      omega
  · intro f hf
    rcases runSimulationsFrom_failure_some runner e d (l.take (idx + 1)) 0 f hf with
      ⟨j, hj, hfail, _, hfeq⟩
    have hji : j = idx := by
      by_contra hne
      have hjlt : j < idx := by omega
      rw [Nat.zero_add, hprev j hjlt] at hfail
      omega
    subst hji
    have hget : (l.take (j + 1)).get ⟨j, hj⟩ = l.get ⟨j, hidx⟩ := by
      simp [List.get_eq_getElem, List.getElem_take]
    simp only [Nat.zero_add] at hfeq
    rw [hfeq, hget]
    refine ⟨rfl, rfl, rfl, ?_⟩
    rw [reproductionCommand]
  · intro h0
    have hk : idx + 1 ≤ firstFailFrom e 0 l.length := by
      apply firstFailFrom_ge e l.length 0 (idx + 1) (by omega)
      intro j hj
      simp only [Nat.zero_add]
      rcases Nat.lt_or_ge j idx with h | h
      · rw [hprev j h]; omega
      · have hji : j = idx := by omega
        rw [hji, h0]; omega
    have hres := runSimulationsFrom_results runner e d l 0
    rw [show (run_simulations runner e l d).2.1 = (runSimulationsFrom runner e d 0 l).2.1
      from rfl, hres]
    have hlen2 : idx < (((l.take (firstFailFrom e 0 l.length)).enumFrom 0).map
        (fun pr => mkSuccess e pr.1 pr.2)).length := by
      simp only [List.length_map, List.enumFrom_length, List.length_take]
      omega
    rw [List.getElem?_eq_getElem hlen2]
    congr 1
    rw [List.getElem_map, List.getElem_enumFrom]
    simp only [Nat.zero_add]
    have hti : idx < (l.take (firstFailFrom e 0 l.length)).length := by
      simp only [List.length_take]; omega
    have heq : (l.take (firstFailFrom e 0 l.length))[idx] = l[idx] :=
      List.getElem_take _
    rw [mkSuccess, heq]
    rfl

/-- Witness for C2: with the combination at position 1 exiting with code 2
(earlier combinations succeeding), the truncated run raises. -/
theorem run_simulations_exit_code_spec_witness :
    (run_simulations runnerW execEnvW ([[("a", "1")], [("b", "2")]].take 2) "/data").2.2
      ≠ none :=
  (run_simulations_exit_code_spec runnerW execEnvW [[("a", "1")], [("b", "2")]] "/data" 1
    (by decide) (by decide) (by decide)).1.mpr (by decide)

/-- C4: every executed combination is run with an argv of exactly one
`--<name>=<value>` token per parameter after the executable, from a working
directory `data_folder/<id>` named by the freshly generated id of that run,
with the process stdout and stderr captured verbatim to files `stdout` and
`stderr` inside that directory; distinct generated ids give distinct
working directories. -/
theorem run_simulations_invocation_spec (runner : SimulationRunner) (e : ExecEnv)
    (l : List Combination) (d : String) (idx : Nat) (hidx : idx < l.length)
    (hprev : ∀ j, j < idx → ¬ 0 < e.returncode j) :
    (run_simulations runner e l d).1[idx]? = some
      { command := runner.script_executable ::
          (l.get ⟨idx, hidx⟩).map (fun pv => "--" ++ pv.1 ++ "=" ++ pv.2)
        env := runner.environment
        cwd := pathJoin d (e.ids idx)
        stdoutPath := pathJoin (pathJoin d (e.ids idx)) "stdout"
        stderrPath := pathJoin (pathJoin d (e.ids idx)) "stderr"
        stdoutContent := e.simStdout idx
        stderrContent := e.simStderr idx } ∧
    (∀ j, e.ids j ≠ e.ids idx → pathJoin d (e.ids j) ≠ pathJoin d (e.ids idx)) := by
  constructor
  · have hk : idx ≤ firstFailFrom e 0 l.length :=
      firstFailFrom_ge e l.length 0 idx (by omega) (by simpa using hprev)
    have htr := runSimulationsFrom_traces runner e d l 0
    rw [show (run_simulations runner e l d).1 = (runSimulationsFrom runner e d 0 l).1
      from rfl, htr]
    have hlen2 : idx < (((l.take (min (firstFailFrom e 0 l.length + 1) l.length)).enumFrom
        0).map (fun pr => (runOne runner e d pr.1 pr.2).1)).length := by
      simp only [List.length_map, List.enumFrom_length, List.length_take]
      omega
    rw [List.getElem?_eq_getElem hlen2]
    congr 1
    rw [List.getElem_map, List.getElem_enumFrom]
    simp only [Nat.zero_add]
    have hti : idx < (l.take (min (firstFailFrom e 0 l.length + 1) l.length)).length := by
      simp only [List.length_take]; omega
    have heq : (l.take (min (firstFailFrom e 0 l.length + 1) l.length))[idx] = l[idx] :=
      List.getElem_take _
    rw [heq, runOne_fst]
    rfl
  · intro j hne hpj
    exact hne (pathJoin_right_injective d (e.ids j) (e.ids idx) hpj)

/-- Witness for C4: the first executed combination of a concrete run has the
spelled-out argv, working directory and capture files. -/
theorem run_simulations_invocation_spec_witness :
    (run_simulations runnerW execEnvW [[("a", "1")]] "/data").1[0]? = some traceW :=
  (run_simulations_invocation_spec runnerW execEnvW [[("a", "1")]] "/data" 0
    (by decide) (by omega)).1

/-! ## Theorems: execution-engine idempotence (C8) -/

/-- The repetition indices allocated for one fingerprint by `expand`. -/
def allocatedRuns (store : List StoredResult) (runs : Nat) (fp : Fingerprint) : List Nat :=
  if runs ≤ (usedRuns store fp).length then []
  else get_next_rngruns (usedRuns store fp) (runs - (usedRuns store fp).length)

/-- Rewriting `expand` in terms of per-fingerprint allocations. -/
lemma expand_eq_alloc (ps : List (String × List String)) (runs : Nat)
    (store : List StoredResult) :
    expand ps runs store = ((cartesianProduct ps).dedup.map
      (fun fp => (allocatedRuns store runs fp).map (fun r => (fp, r)))).flatten := by
  unfold expand allocatedRuns
  refine congrArg List.flatten ?_
  refine congrArg (fun f => List.map f (cartesianProduct ps).dedup) ?_
  funext fp
  dsimp only
  split <;> simp

/-- Allocation tops the fingerprint's repetition count up to `runs`. -/
lemma allocatedRuns_full (store : List StoredResult) (runs : Nat) (fp : Fingerprint) :
    runs ≤ (usedRuns store fp).length + (allocatedRuns store runs fp).length := by
  unfold allocatedRuns
  split
  · omega
  · rw [get_next_rngruns_length]
    omega

/-- Used runs distribute over store concatenation. -/
lemma usedRuns_append (s t : List StoredResult) (fp : Fingerprint) :
    usedRuns (s ++ t) fp = usedRuns s fp ++ usedRuns t fp := by
  simp [usedRuns, List.filter_append]

/-- The runs with fingerprint `fp` among one fingerprint's block. -/
lemma usedRuns_block (fp q : Fingerprint) (rs : List Nat) :
    usedRuns (rs.map (fun r => (q, r))) fp = if q = fp then rs else [] := by
  by_cases hq : q = fp
  · subst hq
    simp [usedRuns, List.filter_map, Function.comp_def]
  · simp [usedRuns, List.filter_map, Function.comp_def, hq]

/-- A fingerprint not in the expanded list receives no allocation. -/
lemma usedRuns_alloc_notmem (f : Fingerprint → List Nat) :
    ∀ (fps : List Fingerprint) (fp : Fingerprint), fp ∉ fps →
      usedRuns ((fps.map (fun q => (f q).map (fun r => (q, r)))).flatten) fp = [] := by
  intro fps
  induction fps with
  | nil => intro fp _; rfl
  | cons q qs ih =>
    intro fp hfp
    rw [List.map_cons, List.flatten_cons, usedRuns_append, usedRuns_block,
      if_neg (fun hq => hfp (by rw [← hq]; exact List.mem_cons_self q qs)),
      ih fp (fun hmem => hfp (List.mem_cons_of_mem _ hmem))]
    rfl

/-- With distinct fingerprints, each fingerprint's allocation in the
flattened expansion is exactly its own block. -/
lemma usedRuns_alloc (f : Fingerprint → List Nat) :
    ∀ (fps : List Fingerprint), fps.Nodup → ∀ fp ∈ fps,
      usedRuns ((fps.map (fun q => (f q).map (fun r => (q, r)))).flatten) fp = f fp := by
  intro fps
  induction fps with
  | nil => intro _ fp hfp; cases hfp
  | cons q qs ih =>
    intro hnd fp hfp
    have hq : q ∉ qs := (List.nodup_cons.mp hnd).1
    rw [List.map_cons, List.flatten_cons, usedRuns_append, usedRuns_block]
    rcases List.mem_cons.mp hfp with rfl | hmem
    · rw [if_pos rfl, usedRuns_alloc_notmem f qs fp hq, List.append_nil]
    · rw [if_neg (fun hqe => hq (by rw [hqe]; exact hmem)), List.nil_append]
      exact ih (List.nodup_cons.mp hnd).2 fp hmem

/-- C8: `run_missing_simulations` is idempotent.  Immediately after a
successful run (which inserts every missing combination into the store),
re-invoking with identical arguments computes an empty set of missing
combinations — every fingerprint's existing repetition count has reached
`runs` — and therefore leaves the store unchanged. -/
theorem run_missing_simulations_idempotent (ps : List (String × List String)) (runs : Nat)
    (store : List StoredResult) :
    expand ps runs (run_missing_simulations ps runs store) = [] ∧
    run_missing_simulations ps runs (run_missing_simulations ps runs store) =
      run_missing_simulations ps runs store := by
  have hmain : expand ps runs (run_missing_simulations ps runs store) = [] := by
    rw [run_missing_simulations, expand_eq_alloc]
    apply List.flatten_eq_nil_iff.mpr
    intro l hl
    rcases List.mem_map.mp hl with ⟨fp, hfp, rfl⟩
    have hnd := List.nodup_dedup (cartesianProduct ps)
    have hinner : usedRuns (expand ps runs store) fp = allocatedRuns store runs fp := by
      rw [expand_eq_alloc]
      exact usedRuns_alloc _ _ hnd fp hfp
    have hfull : runs ≤ (usedRuns (store ++ expand ps runs store) fp).length := by
      rw [usedRuns_append, hinner, List.length_append]
      exact allocatedRuns_full store runs fp
    rw [show allocatedRuns (store ++ expand ps runs store) runs fp = [] from by
      unfold allocatedRuns; rw [if_pos hfull]]
    rfl
  refine ⟨hmain, ?_⟩
  rw [show run_missing_simulations ps runs (run_missing_simulations ps runs store) =
    run_missing_simulations ps runs store ++
      expand ps runs (run_missing_simulations ps runs store) from rfl, hmain,
    List.append_nil]

/-! ## Theorems: input combinations are never mutated (C10) -/

/-- Setting an absent key appends it. -/
lemma dictSet_not_mem (acc : List (String × String)) (k v : String)
    (h : k ∉ acc.map Prod.fst) : dictSet acc k v = acc ++ [(k, v)] := by
  unfold dictSet
  rw [if_neg]
  simp only [List.any_eq_true, not_exists, not_and]
  intro kv hkv hk
  exact h (List.mem_map.mpr ⟨kv, hkv, by simpa using hk⟩)

/-- Updating from a dict with fresh, distinct keys appends its items. -/
lemma dictUpdate_disjoint :
    ∀ (src acc : List (String × String)), (src.map Prod.fst).Nodup →
      (∀ k ∈ src.map Prod.fst, k ∉ acc.map Prod.fst) →
      dictUpdate acc src = acc ++ src := by
  intro src
  induction src with
  | nil => intro acc _ _; simp [dictUpdate]
  | cons kv rest ih =>
    intro acc hnd hdis
    have hstep : dictUpdate acc (kv :: rest) = dictUpdate (dictSet acc kv.1 kv.2) rest := rfl
    have hhead : kv.1 ∉ acc.map Prod.fst := hdis kv.1 (by simp)
    have hm : (kv.1 :: rest.map Prod.fst).Nodup := by simpa using hnd
    have hnd' : (rest.map Prod.fst).Nodup := (List.nodup_cons.mp hm).2
    have hfresh : kv.1 ∉ rest.map Prod.fst := (List.nodup_cons.mp hm).1
    rw [hstep, dictSet_not_mem acc kv.1 kv.2 hhead, ih (acc ++ [(kv.1, kv.2)]) hnd' ?_]
    · simp
    · intro k hk
      have hknotacc : k ∉ acc.map Prod.fst :=
        hdis k (by rw [List.map_cons]; exact List.mem_cons_of_mem _ hk)
      intro hkmem
      rw [List.map_append] at hkmem
      rcases List.mem_append.mp hkmem with hka | hkb
      · exact hknotacc hka
      · have hkkv : k = kv.1 := by simpa using hkb
        exact hfresh (by rw [← hkkv]; exact hk)

/-- Updating the empty dict, `{}.update(d)`, rebuilds `d` when the keys of `d` are distinct (always true of
a Python dict). -/
lemma dictUpdate_nil_of_nodup (d : List (String × String))
    (h : (d.map Prod.fst).Nodup) : dictUpdate [] d = d := by
  have := dictUpdate_disjoint d [] h (by simp)
  simpa using this

/-- The fresh dict is allocated at the old heap bound. -/
lemma buildResultParams_snd (h : Heap) (a : Nat) : (buildResultParams h a).2 = h.next := rfl

/-- The allocation bumps the heap bound by one. -/
lemma buildResultParams_next (h : Heap) (a : Nat) :
    (buildResultParams h a).1.next = h.next + 1 := rfl

/-- Every pre-existing address is untouched by one iteration. -/
lemma buildResultParams_preserve (h : Heap) (a b : Nat) (hb : b ≠ h.next) :
    (buildResultParams h a).1.contents b = h.contents b := by
  unfold buildResultParams
  dsimp only
  rw [if_neg hb, if_neg hb]

/-- The fresh dict holds a copy of the input combination. -/
lemma buildResultParams_fresh (h : Heap) (a : Nat) (ha : a ≠ h.next)
    (hk : ((h.contents a).map Prod.fst).Nodup) :
    (buildResultParams h a).1.contents h.next = h.contents a := by
  unfold buildResultParams
  dsimp only
  rw [if_pos rfl, if_pos rfl, if_neg ha]
  exact dictUpdate_nil_of_nodup _ hk

/-- The loop only ever grows the heap bound. -/
lemma runParamsCopies_next_le :
    ∀ (addrs : List Nat) (h : Heap), h.next ≤ (runParamsCopies h addrs).1.next := by
  intro addrs
  induction addrs with
  | nil => intro h; exact le_rfl
  | cons a as ih =>
    intro h
    have h1 := ih (buildResultParams h a).1
    rw [buildResultParams_next] at h1
    calc h.next ≤ h.next + 1 := Nat.le_succ _
      _ ≤ _ := h1

/-- Every address below the initial heap bound is untouched by the loop. -/
lemma runParamsCopies_preserve :
    ∀ (addrs : List Nat) (h : Heap) (b : Nat), b < h.next →
      (runParamsCopies h addrs).1.contents b = h.contents b := by
  intro addrs
  induction addrs with
  | nil => intro h b _; rfl
  | cons a as ih =>
    intro h b hb
    have hstep : (runParamsCopies h (a :: as)).1 =
        (runParamsCopies (buildResultParams h a).1 as).1 := rfl
    rw [hstep, ih (buildResultParams h a).1 b (by rw [buildResultParams_next]; omega),
      buildResultParams_preserve h a b (by omega)]

/-- Weakening of `List.Forall₂` that may use membership in the right list. -/
lemma forall₂_imp_mem {α β : Type} {R S : α → β → Prop} :
    ∀ {l₁ : List α} {l₂ : List β}, List.Forall₂ R l₁ l₂ →
      (∀ a b, b ∈ l₂ → R a b → S a b) → List.Forall₂ S l₁ l₂ := by
  intro l₁ l₂ hf
  induction hf with
  | nil => intro _; exact List.Forall₂.nil
  | cons hR hF ih =>
    intro himp
    exact List.Forall₂.cons (himp _ _ (List.mem_cons_self _ _) hR)
      (ih fun a b hb => himp a b (List.mem_cons_of_mem _ hb))

/-- Each yielded `params` dict is at a fresh address (at or above the
initial heap bound) and copies its input combination. -/
lemma runParamsCopies_forall₂ :
    ∀ (addrs : List Nat) (h : Heap), (∀ a ∈ addrs, a < h.next) →
      (∀ a ∈ addrs, ((h.contents a).map Prod.fst).Nodup) →
      List.Forall₂ (fun ra a => h.next ≤ ra ∧
          (runParamsCopies h addrs).1.contents ra = h.contents a)
        (runParamsCopies h addrs).2 addrs := by
  intro addrs
  induction addrs with
  | nil => intro h _ _; exact List.Forall₂.nil
  | cons a as ih =>
    intro h hvalid hkeys
    have ha : a < h.next := hvalid a (List.mem_cons_self _ _)
    have hfinal : (runParamsCopies h (a :: as)).1 =
        (runParamsCopies (buildResultParams h a).1 as).1 := rfl
    have hsnd : (runParamsCopies h (a :: as)).2 =
        h.next :: (runParamsCopies (buildResultParams h a).1 as).2 := rfl
    rw [hfinal, hsnd]
    refine List.Forall₂.cons ⟨le_rfl, ?_⟩ ?_
    · rw [runParamsCopies_preserve as (buildResultParams h a).1 h.next
        (by rw [buildResultParams_next]; omega)]
      exact buildResultParams_fresh h a (by omega)
        (hkeys a (List.mem_cons_self _ _))
    · have hvalid' : ∀ b ∈ as, b < (buildResultParams h a).1.next := by
        intro b hb
        rw [buildResultParams_next]
        have := hvalid b (List.mem_cons_of_mem _ hb)
        omega
      have hkeys' : ∀ b ∈ as,
          (((buildResultParams h a).1.contents b).map Prod.fst).Nodup := by
        intro b hb
        rw [buildResultParams_preserve h a b
          (by have := hvalid b (List.mem_cons_of_mem _ hb); omega)]
        exact hkeys b (List.mem_cons_of_mem _ hb)
      have htail := ih (buildResultParams h a).1 hvalid' hkeys'
      refine forall₂_imp_mem htail ?_
      intro rb b hb hRb
      refine ⟨?_, ?_⟩
      · have := hRb.1
        rw [buildResultParams_next] at this
        omega
      · rw [hRb.2, buildResultParams_preserve h a b
          (by have := hvalid b (List.mem_cons_of_mem _ hb); omega)]

/-- C10: the params-copying loop of `run_simulations` (runner.py lines
226-232, heap model) never mutates its input: every input combination's
dict is unchanged after the run, and each yielded result's `params` dict is
a fresh object — at an address distinct from every input's — whose contents
equal the input combination. -/
theorem run_simulations_no_input_mutation (h : Heap) (addrs : List Nat)
    (hvalid : ∀ a ∈ addrs, a < h.next)
    (hkeys : ∀ a ∈ addrs, ((h.contents a).map Prod.fst).Nodup) :
    (∀ a ∈ addrs, (runParamsCopies h addrs).1.contents a = h.contents a) ∧
    List.Forall₂ (fun ra a => ra ∉ addrs ∧
        (runParamsCopies h addrs).1.contents ra = h.contents a)
      (runParamsCopies h addrs).2 addrs := by
  constructor
  · intro a ha
    exact runParamsCopies_preserve addrs h a (hvalid a ha)
  · refine (runParamsCopies_forall₂ addrs h hvalid hkeys).imp ?_
    intro ra a hra
    refine ⟨fun hmem => ?_, hra.2⟩
    have := hvalid ra hmem
    omega

/-- Concrete one-dict heap for the C10 witness: address 0 holds the input
combination, addresses from 1 are free. -/
def heapW : Heap :=
  { contents := fun a => if a = 0 then [("x", "1")] else [], next := 1 }

/-- Witness for C10: after a one-combination run on a concrete heap, the
input dict at address 0 is unchanged. -/
theorem run_simulations_no_input_mutation_witness :
    (runParamsCopies heapW [0]).1.contents 0 = heapW.contents 0 :=
  (run_simulations_no_input_mutation heapW [0] (by decide) (by decide)).1 0
    (List.mem_cons_self _ _)

end Sem
